import Mathlib

/-!
Shallow embedding of `pychadwick/pychadwick.py` (the `Chadwick` ctypes
binding class).  Pure record translation is embedded as Lean functions on
`String`; the mutable native globals (the two field-descriptor tables and
their enable arrays) are embedded as an explicit state record; the `games`
generator is embedded as a trace of observable events over an abstract
model of the native file; library loading is embedded as a state machine
counting `LoadLibrary` calls; `convert_data_frame_types` is embedded over
an explicit column-list model of a pandas frame.
-/

namespace Pychadwick

/-! ### Python string primitives used by `listicize_event_string` -/

/-- Python `str.split(c)` for a one-character separator: split at every
occurrence of the separator character, keeping empty pieces. -/
def splitOnCharList (c : Char) : List Char → List (List Char)
  | [] => [[]]
  | x :: xs =>
    let r := splitOnCharList c xs
    if x = c then [] :: r
    else
      match r with
      | [] => [[x]]
      | y :: ys => (x :: y) :: ys

/-- Python `s.split(c)` lifted to `String`. -/
def pySplitChar (s : String) (c : Char) : List String :=
  (splitOnCharList c s.data).map (fun l => ⟨l⟩)

/-- Python `s.replace(c, "")` for a one-character pattern: every occurrence
of the character is removed. -/
def pyReplaceChar (s : String) (c : Char) : String :=
  ⟨s.data.filter (fun x => x != c)⟩

/-- `Chadwick.listicize_event_string`: decode the event bytes, split on
every comma, and delete all double-quote characters from each piece. -/
def listicize_event_string (s : String) : List String :=
  (pySplitChar s ',').map (fun event_item => pyReplaceChar event_item '"')

/-! ### Python `dict` semantics (insertion-ordered association list) -/

/-- One step of Python dict construction: assigning `d[k] = v` overwrites
the value in place when the key is present and appends the pair otherwise. -/
def pyDictInsert (d : List (String × String)) (k v : String) :
    List (String × String) :=
  if d.any (fun p => p.1 == k) then
    d.map (fun p => if p.1 == k then (p.1, v) else p)
  else d ++ [(k, v)]

/-- Python `dict(pairs)`: insert the pairs left to right. -/
def pyDictOfPairs (ps : List (String × String)) : List (String × String) :=
  ps.foldl (fun d p => pyDictInsert d p.1 p.2) []

/-- Python `d.get(k)`: the value of the first (unique) entry with key `k`. -/
def pyDictGet (d : List (String × String)) (k : String) : Option String :=
  (d.find? (fun p => p.1 == k)).map Prod.snd

/-- The value attached to the last occurrence of key `k` in a pair list. -/
def lastAssoc (ps : List (String × String)) (k : String) : Option String :=
  ps.foldl (fun acc p => if p.1 == k then some p.2 else acc) none

/-! ### The native field-descriptor tables -/

/-- Modelled from the spec: one row of a field-descriptor table holds a
field name (the `header` member of the native `CWEventFieldStruct`, decoded
to a host string); the struct layout itself lives outside this module. -/
structure CWEventFieldStruct where
  header : String
deriving DecidableEq

/-- The native globals the binding reads and writes through `in_dll`:
the two descriptor arrays and the two parallel `c_int` enable arrays,
modelled as functions from array index to cell contents. -/
structure DllState where
  field_data : Nat → CWEventFieldStruct
  ext_field_data : Nat → CWEventFieldStruct
  fields : Nat → Int
  ext_fields : Nat → Int

/-- `Chadwick.FIELDS_COUNT`. -/
def FIELDS_COUNT : Nat := 96

/-- `Chadwick.EXT_FIELDS_COUNT`. -/
def EXT_FIELDS_COUNT : Nat := 63

/-- `Chadwick.cwevent_field_data`: `in_dll` with ctypes type
`CWEventFieldStruct * FIELDS_COUNT` reads exactly `FIELDS_COUNT` rows of
the native global. -/
def cwevent_field_data (d : DllState) : List CWEventFieldStruct :=
  (List.range FIELDS_COUNT).map d.field_data

/-- `Chadwick.cwevent_fields`: `in_dll` with type `c_int * FIELDS_COUNT`
on the native global `fields`. -/
def cwevent_fields (d : DllState) : List Int :=
  (List.range FIELDS_COUNT).map d.fields

/-- `Chadwick.cwevent_ext_field_data`. -/
def cwevent_ext_field_data (d : DllState) : List CWEventFieldStruct :=
  (List.range EXT_FIELDS_COUNT).map d.ext_field_data

/-- `Chadwick.cwevent_ext_fields`. -/
def cwevent_ext_fields (d : DllState) : List Int :=
  (List.range EXT_FIELDS_COUNT).map d.ext_fields

/-- `Chadwick.cwevent_headers`: the decoded `header` of every standard row. -/
def cwevent_headers (d : DllState) : List String :=
  (cwevent_field_data d).map (fun p => p.header)

/-- `Chadwick.cwevent_ext_headers`. -/
def cwevent_ext_headers (d : DllState) : List String :=
  (cwevent_ext_field_data d).map (fun p => p.header)

/-- `Chadwick.all_headers`. -/
def all_headers (d : DllState) : List String :=
  cwevent_headers d ++ cwevent_ext_headers d

/-- `Chadwick.set_event_field_value`: look the name up in the standard
headers, else in the extended headers, and write `value` at the first
matching index of the corresponding enable array; on an unknown name log a
warning (the returned flag) and write nothing. -/
def set_event_field_value (d : DllState) (field_name : String) (value : Int) :
    DllState × Bool :=
  if field_name ∈ cwevent_headers d then
    ({ d with
        fields :=
          Function.update d.fields ((cwevent_headers d).indexOf field_name) value },
      false)
  else if field_name ∈ cwevent_ext_headers d then
    ({ d with
        ext_fields :=
          Function.update d.ext_fields
            ((cwevent_ext_headers d).indexOf field_name) value },
      false)
  else (d, true)

/-- `Chadwick.set_event_field`. -/
def set_event_field (d : DllState) (field_name : String) : DllState × Bool :=
  set_event_field_value d field_name 1

/-- `Chadwick.unset_event_field`. -/
def unset_event_field (d : DllState) (field_name : String) : DllState × Bool :=
  set_event_field_value d field_name 0

/-- `Chadwick.set_all_headers`: call `set_event_field` on every element of
`all_headers` in order. -/
def set_all_headers (d : DllState) : DllState :=
  (all_headers d).foldl (fun s h => (set_event_field s h).1) d

/-- `Chadwick.active_headers`: the standard headers whose enable entry is 1
followed by the extended headers whose enable entry is 1. -/
def active_headers (d : DllState) : List String :=
  (((cwevent_headers d).enum.filter
      (fun p => (cwevent_fields d).getD p.1 0 == 1)).map Prod.snd)
    ++ (((cwevent_ext_headers d).enum.filter
      (fun p => (cwevent_ext_fields d).getD p.1 0 == 1)).map Prod.snd)

/-- `Chadwick.dicticize_event_string`: `dict(zip(headers, fields))`, with
`headers` defaulting to `active_headers`. -/
def dicticize_event_string (d : DllState) (event_bytes : String)
    (headers : Option (List String)) : List (String × String) :=
  let hs := headers.getD (active_headers d)
  pyDictOfPairs (hs.zip (listicize_event_string event_bytes))

/-! ### The `games` generator as a trace of observable events

The native file is opaque: we model it as the sequence of outcomes the
successive `cw_game_read` calls would produce, where the end of the
sequence is the point at which `feof` becomes nonzero and an `exn` outcome
is a ctypes call that raises. -/

/-- Outcome of one `cw_game_read` call: a game pointer, or a raised
exception. -/
inductive ReadResult where
  | ok (g : Nat)
  | exn
deriving DecidableEq

/-- Observable events of the `games` generator. -/
inductive GEvent where
  | openFile (path : String) (mode : String)
  | feofCheck (b : Bool)
  | readGame (r : ReadResult)
  | yieldGame (g : Nat)
  | closeFile
  | raiseExn
deriving DecidableEq

/-- The `while not self.feof(...)` loop of `Chadwick.games`: check `feof`;
if false, call `cw_game_read` and yield its result, but on an exception
call `fclose` and return (never re-raising). -/
def gamesLoop : List ReadResult → List GEvent
  | [] => [GEvent.feofCheck true]
  | r :: rest =>
    GEvent.feofCheck false :: GEvent.readGame r ::
      match r with
      | ReadResult.ok g => GEvent.yieldGame g :: gamesLoop rest
      | ReadResult.exn => [GEvent.closeFile]

/-- `Chadwick.games(file_path)`: `fopen` the path with the default mode
`"r"`, then run the read loop. -/
def games (path : String) (file : List ReadResult) : List GEvent :=
  GEvent.openFile path "r" :: gamesLoop file

/-- The games yielded along a trace. -/
def yieldsOf (t : List GEvent) : List Nat :=
  t.filterMap (fun e =>
    match e with
    | GEvent.yieldGame g => some g
    | _ => none)

/-- The game pointers successfully returned by `cw_game_read` calls along a
trace. -/
def okReadsOf (t : List GEvent) : List Nat :=
  t.filterMap (fun e =>
    match e with
    | GEvent.readGame (ReadResult.ok g) => some g
    | _ => none)

/-! ### Shared-library loading -/

/-- The process: `loadCount` counts `ctypes.cdll.LoadLibrary` calls; each
call returns a fresh handle (its sequence number). -/
structure World where
  loadCount : Nat
deriving DecidableEq

/-- One `ctypes.cdll.LoadLibrary(path)` call. -/
def loadLibrary (w : World) : World × Nat :=
  ({ loadCount := w.loadCount + 1 }, w.loadCount)

/-- The `_dll` / `library_path` attributes of a `Chadwick` instance. -/
structure ChadwickState where
  _dll : Option Nat
  library_path : String
deriving DecidableEq

/-- `Chadwick.__init__`: store `None` in `_dll`, remember the path, then
immediately call `_load_shared_library` (which stores the new handle). -/
def chadwick_init (w : World) (path : String) : World × ChadwickState :=
  let s0 : ChadwickState := { _dll := none, library_path := path }
  let (w1, h) := loadLibrary w
  (w1, { s0 with _dll := some h })

/-- The `Chadwick.libchadwick` property: reload only when `_dll` is `None`,
then return `_dll`. -/
def libchadwick (w : World) (s : ChadwickState) :
    World × ChadwickState × Nat :=
  match s._dll with
  | some h => (w, s, h)
  | none =>
    let (w1, h) := loadLibrary w
    (w1, { s with _dll := some h }, h)

/-! ### `convert_data_frame_types` over an explicit frame model -/

/-- A pandas column: its dtype tag and its cell values. -/
structure Column where
  dtype : String
  values : List Int
deriving DecidableEq

/-- A pandas frame: named columns in order. -/
structure DataFrame where
  cols : List (String × Column)
deriving DecidableEq

/-- Python `column_name in df`. -/
def DataFrame.hasCol (df : DataFrame) (name : String) : Bool :=
  df.cols.any (fun p => p.1 == name)

/-- `df.loc[:, name]` read. -/
def DataFrame.getCol (df : DataFrame) (name : String) : Option Column :=
  (df.cols.find? (fun p => p.1 == name)).map Prod.snd

/-- `df.loc[:, name] = c` write: replace the named column, keep the rest. -/
def DataFrame.setCol (df : DataFrame) (name : String) (c : Column) :
    DataFrame :=
  ⟨df.cols.map (fun p => if p.1 == name then (p.1, c) else p)⟩

/-- `series.astype(dt)`: pandas' coercion is external, so it is a parameter
`coerce` applied cell-wise, and the column dtype becomes `dt`. -/
def astypeCol (coerce : String → Int → Int) (dt : String) (c : Column) :
    Column :=
  ⟨dt, c.values.map (coerce dt)⟩

/-- `Chadwick.convert_data_frame_types`: for each mapping entry in order,
if the column is present in the frame, coerce that column in place. -/
def convert_data_frame_types (coerce : String → Int → Int) (df : DataFrame)
    (data_type_mapping : List (String × String)) : DataFrame :=
  data_type_mapping.foldl
    (fun df p =>
      if df.hasCol p.1 then
        df.setCol p.1 (astypeCol coerce p.2 ((df.getCol p.1).getD ⟨"", []⟩))
      else df)
    df

/-! ### Concrete native states used as test inputs -/

/-- A throwaway native state: empty headers, all flags 0. -/
def dllZero : DllState :=
  { field_data := fun _ => ⟨""⟩
    ext_field_data := fun _ => ⟨""⟩
    fields := fun _ => 0
    ext_fields := fun _ => 0 }

/-- A native state whose standard header names are all `"a"` and whose
extended header names are all `"b"`: names repeat within each table. -/
def dllDup : DllState :=
  { field_data := fun _ => ⟨"a"⟩
    ext_field_data := fun _ => ⟨"b"⟩
    fields := fun _ => 0
    ext_fields := fun _ => 0 }

/-- A native state with pairwise distinct header names: row `i` of the
standard table is named by `i` copies of `a`, row `j` of the extended
table by `FIELDS_COUNT + j` copies, and all flags start at 0. -/
def dllSeq : DllState :=
  { field_data := fun i => ⟨⟨List.replicate i 'a'⟩⟩
    ext_field_data := fun j => ⟨⟨List.replicate (FIELDS_COUNT + j) 'a'⟩⟩
    fields := fun _ => 0
    ext_fields := fun _ => 0 }

/-- A native state in which the name `"a"` appears in every row of both
tables. -/
def dllBoth : DllState :=
  { field_data := fun _ => ⟨"a"⟩
    ext_field_data := fun _ => ⟨"a"⟩
    fields := fun _ => 0
    ext_fields := fun _ => 0 }

/-! ### Lemmas on the Python `dict` model -/

theorem pyDictGet_cons (p : String × String) (d : List (String × String))
    (k : String) :
    pyDictGet (p :: d) k = if p.1 == k then some p.2 else pyDictGet d k := by
  simp only [pyDictGet, List.find?_cons]
  cases h : p.1 == k <;> simp [h]

theorem pyDictInsert_cons_ne (p : String × String)
    (rest : List (String × String)) (k v : String) (hp : p.1 ≠ k) :
    pyDictInsert (p :: rest) k v = p :: pyDictInsert rest k v := by
  have hb : (p.1 == k) = false := beq_eq_false_iff_ne.mpr hp
  unfold pyDictInsert
  by_cases ha : rest.any (fun q => q.1 == k) = true
  · rw [if_pos (by simp [List.any_cons, ha]), if_pos ha, List.map_cons,
      if_neg (by simp [hb])]
  · rw [if_neg (by simp [List.any_cons, hb]; simpa using ha), if_neg ha,
      List.cons_append]

theorem pyDictInsert_cons_eq (p : String × String)
    (rest : List (String × String)) (k v : String) (hp : p.1 = k) :
    pyDictInsert (p :: rest) k v
      = (p.1, v) :: rest.map (fun q => if q.1 == k then (q.1, v) else q) := by
  have hb : (p.1 == k) = true := beq_iff_eq.mpr hp
  unfold pyDictInsert
  rw [if_pos (by simp [List.any_cons, hb]), List.map_cons, if_pos hb]

theorem pyDictGet_pyDictInsert_self (d : List (String × String)) (k v : String) :
    pyDictGet (pyDictInsert d k v) k = some v := by
  induction d with
  | nil => simp [pyDictInsert, pyDictGet]
  | cons p rest ih =>
    by_cases hp : p.1 = k
    · rw [pyDictInsert_cons_eq p rest k v hp, pyDictGet_cons]
      simp [hp]
    · rw [pyDictInsert_cons_ne p rest k v hp, pyDictGet_cons,
        if_neg (by simp [hp]), ih]

theorem pyDictGet_mapUpdate_ne (rest : List (String × String)) (k v k' : String)
    (h : k' ≠ k) :
    pyDictGet (rest.map (fun p => if p.1 == k then (p.1, v) else p)) k'
      = pyDictGet rest k' := by
  induction rest with
  | nil => rfl
  | cons q tail ih =>
    rw [List.map_cons]
    by_cases hq : q.1 = k
    · have hk' : q.1 ≠ k' := by rw [hq]; exact fun e => h e.symm
      rw [if_pos (beq_iff_eq.mpr hq), pyDictGet_cons, pyDictGet_cons,
        if_neg (by simpa using hk'), if_neg (by simpa using hk'), ih]
    · rw [if_neg (by simp [hq]), pyDictGet_cons, pyDictGet_cons]
      by_cases hq' : q.1 = k'
      · rw [if_pos (by simpa using hq'), if_pos (by simpa using hq')]
      · rw [if_neg (by simpa using hq'), if_neg (by simpa using hq'), ih]

theorem pyDictGet_pyDictInsert_ne (d : List (String × String)) (k v k' : String)
    (h : k' ≠ k) :
    pyDictGet (pyDictInsert d k v) k' = pyDictGet d k' := by
  induction d with
  | nil =>
    have hb : ¬ ((k, v).1 == k') = true := by
      simpa using fun e => h e.symm
    simp only [pyDictInsert, List.any_nil, Bool.false_eq_true, if_false,
      List.nil_append]
    rw [pyDictGet_cons, if_neg hb]
  | cons p rest ih =>
    by_cases hp : p.1 = k
    · have hk' : p.1 ≠ k' := by rw [hp]; exact fun e => h e.symm
      rw [pyDictInsert_cons_eq p rest k v hp, pyDictGet_cons, pyDictGet_cons,
        if_neg (by simpa using hk'), if_neg (by simpa using hk'),
        pyDictGet_mapUpdate_ne rest k v k' h]
    · rw [pyDictInsert_cons_ne p rest k v hp, pyDictGet_cons, pyDictGet_cons,
        ih]

theorem pyDictOfPairs_append_single (ps : List (String × String))
    (p : String × String) :
    pyDictOfPairs (ps ++ [p]) = pyDictInsert (pyDictOfPairs ps) p.1 p.2 := by
  simp [pyDictOfPairs, List.foldl_append]

theorem lastAssoc_append_single (ps : List (String × String))
    (p : String × String) (k : String) :
    lastAssoc (ps ++ [p]) k
      = if p.1 == k then some p.2 else lastAssoc ps k := by
  simp [lastAssoc, List.foldl_append]

/-- Looking a key up in the Python dict built from a pair list returns the
value of the key's last occurrence. -/
theorem pyDictGet_pyDictOfPairs (ps : List (String × String)) (k : String) :
    pyDictGet (pyDictOfPairs ps) k = lastAssoc ps k := by
  induction ps using List.reverseRecOn with
  | nil => rfl
  | append_singleton ps p ih =>
    rw [pyDictOfPairs_append_single, lastAssoc_append_single]
    by_cases hp : p.1 = k
    · rw [if_pos (beq_iff_eq.mpr hp), ← hp, pyDictGet_pyDictInsert_self]
    · rw [if_neg (by simp [hp]),
        pyDictGet_pyDictInsert_ne _ _ _ _ (fun e => hp e.symm)]
      exact ih

theorem length_pyDictInsert_le (d : List (String × String)) (k v : String) :
    (pyDictInsert d k v).length ≤ d.length + 1 := by
  unfold pyDictInsert
  by_cases h : d.any (fun p => p.1 == k) = true
  · simp [h]
  · simp only [Bool.not_eq_true] at h
    simp [h]

theorem length_foldl_pyDictInsert_le (ps : List (String × String)) :
    ∀ d : List (String × String),
      (ps.foldl (fun d p => pyDictInsert d p.1 p.2) d).length
        ≤ d.length + ps.length := by
  induction ps with
  | nil => intro d; simp
  | cons p rest ih =>
    intro d
    calc (List.foldl (fun d p => pyDictInsert d p.1 p.2)
            (pyDictInsert d p.1 p.2) rest).length
        ≤ (pyDictInsert d p.1 p.2).length + rest.length := ih _
      _ ≤ d.length + 1 + rest.length :=
          Nat.add_le_add_right (length_pyDictInsert_le d p.1 p.2) _
      _ = d.length + (p :: rest).length := by
          simp only [List.length_cons]; omega

theorem length_pyDictOfPairs_le (ps : List (String × String)) :
    (pyDictOfPairs ps).length ≤ ps.length := by
  simpa using length_foldl_pyDictInsert_le ps []

theorem mem_pyDictInsert (d : List (String × String)) (k v : String)
    (q : String × String) (hq : q ∈ pyDictInsert d k v) :
    q ∈ d ∨ q = (k, v) := by
  unfold pyDictInsert at hq
  by_cases h : d.any (fun p => p.1 == k) = true
  · rw [if_pos h] at hq
    rcases List.mem_map.mp hq with ⟨p, hp, he⟩
    by_cases hpk : p.1 = k
    · right
      rw [← he, if_pos (beq_iff_eq.mpr hpk), hpk]
    · left
      rw [← he, if_neg (by simp [hpk])]
      exact hp
  · rw [if_neg h] at hq
    rcases List.mem_append.mp hq with h1 | h1
    · exact Or.inl h1
    · exact Or.inr (List.mem_singleton.mp h1)

theorem mem_foldl_pyDictInsert (ps : List (String × String)) :
    ∀ (d : List (String × String)) (q : String × String),
      q ∈ ps.foldl (fun d p => pyDictInsert d p.1 p.2) d → q ∈ d ∨ q ∈ ps := by
  induction ps with
  | nil => intro d q h; exact Or.inl h
  | cons p rest ih =>
    intro d q h
    rcases ih _ q h with h1 | h1
    · rcases mem_pyDictInsert _ _ _ _ h1 with h2 | h2
      · exact Or.inl h2
      · exact Or.inr (by simp [h2])
    · exact Or.inr (List.mem_cons_of_mem _ h1)

/-- Every entry of the Python dict built from a pair list is one of the
pairs. -/
theorem mem_pyDictOfPairs (ps : List (String × String)) (q : String × String)
    (hq : q ∈ pyDictOfPairs ps) : q ∈ ps := by
  rcases mem_foldl_pyDictInsert ps [] q hq with h | h
  · cases h
  · exact h

/-! ### Last-occurrence lookup lemmas -/

theorem foldl_lastAssoc_step (k : String) (ps : List (String × String)) :
    ∀ acc : Option String,
      ps.foldl (fun acc p => if p.1 == k then some p.2 else acc) acc
        = if (lastAssoc ps k).isSome then lastAssoc ps k else acc := by
  induction ps with
  | nil => intro acc; simp [lastAssoc]
  | cons q rest ih =>
    intro acc
    have hL : lastAssoc (q :: rest) k
        = if (lastAssoc rest k).isSome then lastAssoc rest k
          else if q.1 == k then some q.2 else none := by
      show List.foldl _ (if q.1 == k then some q.2 else none) rest = _
      rw [ih]
    show List.foldl _ (if q.1 == k then some q.2 else acc) rest = _
    rw [ih, hL]
    by_cases h : (lastAssoc rest k).isSome = true
    · simp [h]
    · simp only [Bool.not_eq_true] at h
      by_cases hq : (q.1 == k) = true
      · simp [h, hq]
      · simp only [Bool.not_eq_true] at hq
        simp [h, hq]

theorem lastAssoc_cons (q : String × String) (rest : List (String × String))
    (k : String) :
    lastAssoc (q :: rest) k
      = if (lastAssoc rest k).isSome then lastAssoc rest k
        else if q.1 == k then some q.2 else none := by
  show List.foldl _ (if q.1 == k then some q.2 else none) rest = _
  rw [foldl_lastAssoc_step]

theorem lastAssoc_eq_none_of_not_mem (ps : List (String × String)) (k : String)
    (h : ∀ p ∈ ps, p.1 ≠ k) : lastAssoc ps k = none := by
  induction ps with
  | nil => rfl
  | cons q rest ih =>
    rw [lastAssoc_cons, ih (fun p hp => h p (List.mem_cons_of_mem _ hp))]
    simp [h q (List.mem_cons_self _ _)]

theorem lastAssoc_zip_nodup :
    ∀ (hs fs : List String) (i : Nat), hs.Nodup →
      ∀ (h1 : i < hs.length) (h2 : i < fs.length),
      lastAssoc (hs.zip fs) hs[i] = some fs[i] := by
  intro hs
  induction hs with
  | nil => intro fs i _ h1; exact absurd h1 (by simp)
  | cons h hs' ih =>
    intro fs i hnd h1 h2
    cases fs with
    | nil => exact absurd h2 (by simp)
    | cons f fs' =>
      rw [List.zip_cons_cons, lastAssoc_cons]
      cases i with
      | zero =>
        have hnone : lastAssoc (hs'.zip fs') h = none := by
          apply lastAssoc_eq_none_of_not_mem
          intro p hp he
          have hm := (List.of_mem_zip hp).1
          rw [he] at hm
          exact (List.nodup_cons.mp hnd).1 hm
        simp [hnone]
      | succ j =>
        have ihr := ih fs' j (List.nodup_cons.mp hnd).2
          (by simpa using h1) (by simpa using h2)
        simp only [List.getElem_cons_succ]
        rw [ihr]
        simp

/-! ### Quote removal -/

theorem no_quote_in_listicize (s : String) (fld : String)
    (h : fld ∈ listicize_event_string s) : ∀ c ∈ fld.data, c ≠ '"' := by
  intro c hc
  rcases List.mem_map.mp h with ⟨x, _, he⟩
  rw [← he] at hc
  have hm : c ∈ x.data ∧ ¬c = '"' := by simpa [pyReplaceChar] using hc
  exact hm.2

/-! ### Claim theorems: record translation -/

/-- Claim C9: for every headers list and event string, the dict built by
`dicticize_event_string` has at most `min(#headers, #fields)` entries,
every entry pairs one of the headers with one of the fields (excess
headers or fields are dropped by `zip`), and lookup of any key returns the
value of its last occurrence among the zipped pairs. -/
theorem dicticize_dict_shape (d : DllState) (hs : List String) (s : String) :
    (dicticize_event_string d s (some hs)).length
        ≤ min hs.length (listicize_event_string s).length
    ∧ (∀ q ∈ dicticize_event_string d s (some hs),
        q.1 ∈ hs ∧ q.2 ∈ listicize_event_string s)
    ∧ (∀ k, pyDictGet (dicticize_event_string d s (some hs)) k
        = lastAssoc (hs.zip (listicize_event_string s)) k) := by
  have hd : dicticize_event_string d s (some hs)
      = pyDictOfPairs (hs.zip (listicize_event_string s)) := rfl
  refine ⟨?_, ?_, ?_⟩
  · rw [hd]
    calc (pyDictOfPairs (hs.zip (listicize_event_string s))).length
        ≤ (hs.zip (listicize_event_string s)).length :=
          length_pyDictOfPairs_le _
      _ = min hs.length (listicize_event_string s).length :=
          List.length_zip _ _
  · intro q hq
    rw [hd] at hq
    exact List.of_mem_zip (mem_pyDictOfPairs _ q hq)
  · intro k
    rw [hd, pyDictGet_pyDictOfPairs]

/-- Claim C1 counterexample: a quoted field containing a comma is not
mapped as one field; the record is split at the comma inside the quotes,
so `"a,b",c` produces three fields `a`, `b`, `c` and header `h1` is mapped
to `a`, not to `a,b`. -/
theorem dicticize_quoted_comma_counterexample :
    listicize_event_string "\"a,b\",c" = ["a", "b", "c"]
    ∧ dicticize_event_string dllZero "\"a,b\",c" (some ["h1", "h2"])
        = [("h1", "a"), ("h2", "b")]
    ∧ pyDictGet (dicticize_event_string dllZero "\"a,b\",c"
        (some ["h1", "h2"])) "h1" ≠ some "a,b" := by
  exact ⟨by decide, by decide, by decide⟩

/-- Claim C1 (amended): `dicticize_event_string` translates the record
into a key-value mapping by pairing each field against a caller-selected
ordered list of header names (defaulting to the active headers), where the
fields are obtained by splitting the record at every comma — including a
comma standing between double quotes — and then removing all double-quote
characters from the field values; a quoted field containing a comma is
thus split into several fields rather than mapped as one. -/
theorem dicticize_event_string_spec (d : DllState) (hs : List String)
    (s : String) (i : Nat) (hnd : hs.Nodup) (h1 : i < hs.length)
    (h2 : i < (listicize_event_string s).length) :
    (∀ fld ∈ listicize_event_string s, ∀ c ∈ fld.data, c ≠ '"')
    ∧ dicticize_event_string d s none
        = dicticize_event_string d s (some (active_headers d))
    ∧ pyDictGet (dicticize_event_string d s (some hs)) hs[i]
        = some (listicize_event_string s)[i] := by
  refine ⟨fun fld hf => no_quote_in_listicize s fld hf, rfl, ?_⟩
  have hd : dicticize_event_string d s (some hs)
      = pyDictOfPairs (hs.zip (listicize_event_string s)) := rfl
  rw [hd, pyDictGet_pyDictOfPairs]
  exact lastAssoc_zip_nodup hs _ i hnd h1 h2

/-- Witness for the amended C1 theorem at the record `"a,b",c` with
headers `h1 h2 h3`. -/
theorem dicticize_event_string_spec_witness :
    (["h1", "h2", "h3"] : List String).Nodup
    ∧ 0 < (["h1", "h2", "h3"] : List String).length
    ∧ 0 < (listicize_event_string "\"a,b\",c").length
    ∧ pyDictGet (dicticize_event_string dllZero "\"a,b\",c"
        (some ["h1", "h2", "h3"])) "h1" = some "a" := by
  have h := dicticize_event_string_spec dllZero ["h1", "h2", "h3"]
    "\"a,b\",c" 0 (by decide) (by decide) (by decide)
  refine ⟨by decide, by decide, by decide, ?_⟩
  have h3 := h.2.2
  revert h3
  decide

/-! ### Field-table lemmas -/

theorem length_cwevent_headers (d : DllState) :
    (cwevent_headers d).length = FIELDS_COUNT := by
  simp [cwevent_headers, cwevent_field_data]

theorem length_cwevent_ext_headers (d : DllState) :
    (cwevent_ext_headers d).length = EXT_FIELDS_COUNT := by
  simp [cwevent_ext_headers, cwevent_ext_field_data]

theorem set_event_field_value_field_data (d : DllState) (name : String)
    (v : Int) :
    (set_event_field_value d name v).1.field_data = d.field_data := by
  unfold set_event_field_value
  by_cases h1 : name ∈ cwevent_headers d
  · rw [if_pos h1]
  · rw [if_neg h1]
    by_cases h2 : name ∈ cwevent_ext_headers d
    · rw [if_pos h2]
    · rw [if_neg h2]

theorem set_event_field_value_ext_field_data (d : DllState) (name : String)
    (v : Int) :
    (set_event_field_value d name v).1.ext_field_data = d.ext_field_data := by
  unfold set_event_field_value
  by_cases h1 : name ∈ cwevent_headers d
  · rw [if_pos h1]
  · rw [if_neg h1]
    by_cases h2 : name ∈ cwevent_ext_headers d
    · rw [if_pos h2]
    · rw [if_neg h2]

theorem cwevent_headers_set_event_field_value (d : DllState) (name : String)
    (v : Int) :
    cwevent_headers (set_event_field_value d name v).1 = cwevent_headers d := by
  simp [cwevent_headers, cwevent_field_data,
    set_event_field_value_field_data]

theorem cwevent_ext_headers_set_event_field_value (d : DllState)
    (name : String) (v : Int) :
    cwevent_ext_headers (set_event_field_value d name v).1
      = cwevent_ext_headers d := by
  simp [cwevent_ext_headers, cwevent_ext_field_data,
    set_event_field_value_ext_field_data]

theorem cwevent_headers_set_event_field (d : DllState) (name : String) :
    cwevent_headers (set_event_field d name).1 = cwevent_headers d :=
  cwevent_headers_set_event_field_value d name 1

theorem cwevent_ext_headers_set_event_field (d : DllState) (name : String) :
    cwevent_ext_headers (set_event_field d name).1 = cwevent_ext_headers d :=
  cwevent_ext_headers_set_event_field_value d name 1

theorem set_event_field_field_data (d : DllState) (name : String) :
    (set_event_field d name).1.field_data = d.field_data :=
  set_event_field_value_field_data d name 1

theorem set_event_field_ext_field_data (d : DllState) (name : String) :
    (set_event_field d name).1.ext_field_data = d.ext_field_data :=
  set_event_field_value_ext_field_data d name 1

theorem set_event_field_fields_one_preserved (d : DllState) (name : String)
    (i : Nat) (hd : d.fields i = 1) :
    (set_event_field d name).1.fields i = 1 := by
  unfold set_event_field set_event_field_value
  by_cases h1 : name ∈ cwevent_headers d
  · rw [if_pos h1]
    by_cases hi : i = (cwevent_headers d).indexOf name
    · subst hi; simp [Function.update_same]
    · simpa [Function.update_noteq hi] using hd
  · rw [if_neg h1]
    by_cases h2 : name ∈ cwevent_ext_headers d
    · rw [if_pos h2]; exact hd
    · rw [if_neg h2]; exact hd

theorem set_event_field_ext_fields_one_preserved (d : DllState) (name : String)
    (j : Nat) (hd : d.ext_fields j = 1) :
    (set_event_field d name).1.ext_fields j = 1 := by
  unfold set_event_field set_event_field_value
  by_cases h1 : name ∈ cwevent_headers d
  · rw [if_pos h1]; exact hd
  · rw [if_neg h1]
    by_cases h2 : name ∈ cwevent_ext_headers d
    · rw [if_pos h2]
      by_cases hj : j = (cwevent_ext_headers d).indexOf name
      · subst hj; simp [Function.update_same]
      · simpa [Function.update_noteq hj] using hd
    · rw [if_neg h2]; exact hd

/-- The fold at the heart of `set_all_headers`. -/
def setAllFold (d : DllState) (L : List String) : DllState :=
  L.foldl (fun s h => (set_event_field s h).1) d

theorem set_all_headers_eq_setAllFold (d : DllState) :
    set_all_headers d = setAllFold d (all_headers d) := rfl

theorem setAllFold_fields_one_preserved (L : List String) :
    ∀ (d : DllState) (i : Nat), d.fields i = 1 →
      (setAllFold d L).fields i = 1 := by
  induction L with
  | nil => intro d i hd; exact hd
  | cons h rest ih =>
    intro d i hd
    exact ih _ i (set_event_field_fields_one_preserved d h i hd)

theorem setAllFold_ext_fields_one_preserved (L : List String) :
    ∀ (d : DllState) (j : Nat), d.ext_fields j = 1 →
      (setAllFold d L).ext_fields j = 1 := by
  induction L with
  | nil => intro d j hd; exact hd
  | cons h rest ih =>
    intro d j hd
    exact ih _ j (set_event_field_ext_fields_one_preserved d h j hd)

theorem setAllFold_writes_standard (L : List String) :
    ∀ (d : DllState) (name : String) (i : Nat),
      name ∈ cwevent_headers d →
      (cwevent_headers d).indexOf name = i →
      name ∈ L →
      (setAllFold d L).fields i = 1 := by
  induction L with
  | nil => intro d name i _ _ hL; cases hL
  | cons h rest ih =>
    intro d name i hmem hidx hL
    rcases List.mem_cons.mp hL with he | he
    · subst he
      apply setAllFold_fields_one_preserved rest
      show (set_event_field d name).1.fields i = 1
      unfold set_event_field set_event_field_value
      rw [if_pos hmem, hidx]
      simp [Function.update_same]
    · apply ih ((set_event_field d h).1) name i
      · rw [cwevent_headers_set_event_field]; exact hmem
      · rw [cwevent_headers_set_event_field]; exact hidx
      · exact he

theorem setAllFold_writes_ext (L : List String) :
    ∀ (d : DllState) (name : String) (j : Nat),
      name ∉ cwevent_headers d →
      name ∈ cwevent_ext_headers d →
      (cwevent_ext_headers d).indexOf name = j →
      name ∈ L →
      (setAllFold d L).ext_fields j = 1 := by
  induction L with
  | nil => intro d name j _ _ _ hL; cases hL
  | cons h rest ih =>
    intro d name j hnot hmem hidx hL
    rcases List.mem_cons.mp hL with he | he
    · subst he
      apply setAllFold_ext_fields_one_preserved rest
      show (set_event_field d name).1.ext_fields j = 1
      unfold set_event_field set_event_field_value
      rw [if_neg hnot, if_pos hmem, hidx]
      simp [Function.update_same]
    · apply ih ((set_event_field d h).1) name j
      · rw [cwevent_headers_set_event_field]; exact hnot
      · rw [cwevent_ext_headers_set_event_field]; exact hmem
      · rw [cwevent_ext_headers_set_event_field]; exact hidx
      · exact he

theorem setAllFold_field_data (L : List String) :
    ∀ d : DllState, (setAllFold d L).field_data = d.field_data := by
  induction L with
  | nil => intro d; rfl
  | cons h rest ih =>
    intro d
    rw [show setAllFold d (h :: rest) = setAllFold (set_event_field d h).1 rest
        from rfl,
      ih, set_event_field_field_data]

theorem setAllFold_ext_field_data (L : List String) :
    ∀ d : DllState, (setAllFold d L).ext_field_data = d.ext_field_data := by
  induction L with
  | nil => intro d; rfl
  | cons h rest ih =>
    intro d
    rw [show setAllFold d (h :: rest) = setAllFold (set_event_field d h).1 rest
        from rfl,
      ih, set_event_field_ext_field_data]

/-! ### Claim theorems: field tables -/

/-- Claim C4: for a field name that appears in neither the standard nor
the extended header list, `set_event_field_value` — and hence
`set_event_field` and `unset_event_field` — logs a warning (the returned
flag is `true`) and returns the native state, both field-enable tables
included, completely unchanged. -/
theorem set_event_field_value_unknown_name (d : DllState) (name : String)
    (h1 : name ∉ cwevent_headers d) (h2 : name ∉ cwevent_ext_headers d) :
    (∀ v : Int, set_event_field_value d name v = (d, true))
    ∧ set_event_field d name = (d, true)
    ∧ unset_event_field d name = (d, true) := by
  have hv : ∀ v : Int, set_event_field_value d name v = (d, true) := by
    intro v
    unfold set_event_field_value
    rw [if_neg h1, if_neg h2]
  exact ⟨hv, hv 1, hv 0⟩

/-- Witness for the C4 theorem: the name `z` appears in neither table of
`dllDup`. -/
theorem set_event_field_value_unknown_name_witness :
    "z" ∉ cwevent_headers dllDup ∧ "z" ∉ cwevent_ext_headers dllDup
    ∧ set_event_field dllDup "z" = (dllDup, true) := by
  have h := set_event_field_value_unknown_name dllDup "z"
    (by decide) (by decide)
  exact ⟨by decide, by decide, h.2.1⟩

/-- Claim C10: for a field name present in the standard header list — in
particular a name present in both lists — `set_event_field_value` writes
only the first matching index of the standard enable table: the extended
table is unchanged, the entry at the first occurrence index receives the
value, every other index keeps its old value, and the written index is the
first position carrying the name, so a later duplicate occurrence is never
written.  Likewise, for a name absent from the standard list but present
(possibly several times) in the extended list, only the first matching
index of the extended enable table is written and the standard table is
unchanged. -/
theorem set_event_field_value_first_index (d : DllState) (name : String)
    (v : Int) :
    (name ∈ cwevent_headers d →
      (set_event_field_value d name v).1.ext_fields = d.ext_fields
      ∧ (set_event_field_value d name v).1.fields
          ((cwevent_headers d).indexOf name) = v
      ∧ (∀ j, j ≠ (cwevent_headers d).indexOf name →
          (set_event_field_value d name v).1.fields j = d.fields j)
      ∧ (cwevent_headers d)[(cwevent_headers d).indexOf name]? = some name
      ∧ (∀ j, j < (cwevent_headers d).indexOf name →
          (cwevent_headers d)[j]? ≠ some name))
    ∧ (name ∉ cwevent_headers d → name ∈ cwevent_ext_headers d →
      (set_event_field_value d name v).1.fields = d.fields
      ∧ (set_event_field_value d name v).1.ext_fields
          ((cwevent_ext_headers d).indexOf name) = v
      ∧ (∀ j, j ≠ (cwevent_ext_headers d).indexOf name →
          (set_event_field_value d name v).1.ext_fields j = d.ext_fields j)
      ∧ (cwevent_ext_headers d)[(cwevent_ext_headers d).indexOf name]?
          = some name
      ∧ (∀ j, j < (cwevent_ext_headers d).indexOf name →
          (cwevent_ext_headers d)[j]? ≠ some name)) := by
  constructor
  · intro h
    have hs : (set_event_field_value d name v).1
        = { d with
            fields := Function.update d.fields
              ((cwevent_headers d).indexOf name) v } := by
      unfold set_event_field_value
      rw [if_pos h]
    refine ⟨by rw [hs], ?_, ?_, List.getElem?_indexOf h, ?_⟩
    · rw [hs]
      exact Function.update_same _ _ _
    · intro j hj
      rw [hs]
      exact Function.update_noteq hj _ _
    · intro j hj heq
      rcases List.getElem?_eq_some.mp heq with ⟨hlt, hget⟩
      have hf := @List.not_of_lt_findIdx String
        (fun x => x == name) (cwevent_headers d) j hj
      rw [hget] at hf
      simp at hf
  · intro h1 h2
    have hs : (set_event_field_value d name v).1
        = { d with
            ext_fields := Function.update d.ext_fields
              ((cwevent_ext_headers d).indexOf name) v } := by
      unfold set_event_field_value
      rw [if_neg h1, if_pos h2]
    refine ⟨by rw [hs], ?_, ?_, List.getElem?_indexOf h2, ?_⟩
    · rw [hs]
      exact Function.update_same _ _ _
    · intro j hj
      rw [hs]
      exact Function.update_noteq hj _ _
    · intro j hj heq
      rcases List.getElem?_eq_some.mp heq with ⟨hlt, hget⟩
      have hf := @List.not_of_lt_findIdx String
        (fun x => x == name) (cwevent_ext_headers d) j hj
      rw [hget] at hf
      simp at hf

/-- Witness for the C10 theorem: in `dllBoth` the name `a` fills both
tables and the write lands at standard index 0 only; in `dllDup` the name
`b` fills every extended row and none of the standard rows, and the write
lands at extended index 0 only. -/
theorem set_event_field_value_first_index_witness :
    ("a" ∈ cwevent_headers dllBoth
      ∧ (set_event_field_value dllBoth "a" 7).1.ext_fields
          = dllBoth.ext_fields
      ∧ (set_event_field_value dllBoth "a" 7).1.fields
          ((cwevent_headers dllBoth).indexOf "a") = 7)
    ∧ ("b" ∉ cwevent_headers dllDup
      ∧ "b" ∈ cwevent_ext_headers dllDup
      ∧ (set_event_field_value dllDup "b" 5).1.fields = dllDup.fields
      ∧ (set_event_field_value dllDup "b" 5).1.ext_fields
          ((cwevent_ext_headers dllDup).indexOf "b") = 5) := by
  have h1 := set_event_field_value_first_index dllBoth "a" 7
  have h2 := set_event_field_value_first_index dllDup "b" 5
  refine ⟨⟨by decide, (h1.1 (by decide)).1, (h1.1 (by decide)).2.1⟩,
    by decide, by decide, (h2.2 (by decide) (by decide)).1,
    (h2.2 (by decide) (by decide)).2.1⟩

/-- Claim C6: the binding mirrors exactly two fixed-size field-descriptor
tables — 96 standard rows and 63 extended rows — and each row pairs a
header name with an enabled flag held in a parallel integer array of the
same fixed size. -/
theorem field_tables_shape (d : DllState) :
    FIELDS_COUNT = 96 ∧ EXT_FIELDS_COUNT = 63
    ∧ (cwevent_field_data d).length = 96
    ∧ (cwevent_fields d).length = (cwevent_field_data d).length
    ∧ (cwevent_ext_field_data d).length = 63
    ∧ (cwevent_ext_fields d).length = (cwevent_ext_field_data d).length
    ∧ (∀ i, i < 96 →
        (cwevent_headers d)[i]? = some (d.field_data i).header
        ∧ (cwevent_fields d)[i]? = some (d.fields i))
    ∧ (∀ j, j < 63 →
        (cwevent_ext_headers d)[j]? = some (d.ext_field_data j).header
        ∧ (cwevent_ext_fields d)[j]? = some (d.ext_fields j)) := by
  refine ⟨rfl, rfl, by simp [cwevent_field_data, FIELDS_COUNT],
    by simp [cwevent_fields, cwevent_field_data],
    by simp [cwevent_ext_field_data, EXT_FIELDS_COUNT],
    by simp [cwevent_ext_fields, cwevent_ext_field_data], ?_, ?_⟩
  · intro i hi
    constructor
    · simp [cwevent_headers, cwevent_field_data, FIELDS_COUNT, hi]
    · simp [cwevent_fields, FIELDS_COUNT, hi]
  · intro j hj
    constructor
    · simp [cwevent_ext_headers, cwevent_ext_field_data, EXT_FIELDS_COUNT, hj]
    · simp [cwevent_ext_fields, EXT_FIELDS_COUNT, hj]

/-- Witness for the C6 theorem at `dllZero`, row 0. -/
theorem field_tables_shape_witness :
    (0 : Nat) < 96
    ∧ ((cwevent_headers dllZero)[0]? = some (dllZero.field_data 0).header
        ∧ (cwevent_fields dllZero)[0]? = some (dllZero.fields 0)) :=
  ⟨by decide, (field_tables_shape dllZero).2.2.2.2.2.2.1 0 (by decide)⟩

/-- Witness for the C9 theorem at a concrete record. -/
theorem dicticize_dict_shape_witness :
    (dicticize_event_string dllZero "x,y" (some ["h1"])).length
      ≤ min (["h1"] : List String).length
          (listicize_event_string "x,y").length :=
  (dicticize_dict_shape dllZero ["h1"] "x,y").1

/-! ### Claim theorems: construction-time header enabling -/

set_option maxRecDepth 10000 in
/-- Claim C8 counterexample: in a native state whose header names repeat
(every standard row named `a`, every extended row named `b`),
construction-time `set_all_headers` only ever writes the first occurrence
index, so entry 1 of the standard enable table is still 0 afterwards, and
`active_headers` differs from `all_headers`. -/
theorem set_all_headers_duplicate_counterexample :
    (set_all_headers dllDup).fields 1 ≠ 1
    ∧ active_headers (set_all_headers dllDup) ≠ all_headers dllDup := by
  exact ⟨by decide, by decide⟩

/-- Claim C8 (amended): provided the concatenation of the standard and
extended header lists contains no duplicate name, immediately after
construction (whose final step is `set_all_headers`) every entry of both
field-enable tables mirrored by the binding equals 1, and consequently
`active_headers` equals `all_headers`, the standard headers followed by
the extended headers. -/
theorem set_all_headers_enables_all (d : DllState)
    (hnd : (all_headers d).Nodup) :
    (∀ i, i < FIELDS_COUNT → (set_all_headers d).fields i = 1)
    ∧ (∀ j, j < EXT_FIELDS_COUNT → (set_all_headers d).ext_fields j = 1)
    ∧ active_headers (set_all_headers d) = all_headers d := by
  have hnd' := List.nodup_append.mp hnd
  have hstd : ∀ i, i < FIELDS_COUNT → (set_all_headers d).fields i = 1 := by
    intro i hi
    have hilen : i < (cwevent_headers d).length := by
      rw [length_cwevent_headers]; exact hi
    have hmem : (cwevent_headers d).get ⟨i, hilen⟩ ∈ cwevent_headers d :=
      List.get_mem _ _ _
    have hidx : (cwevent_headers d).indexOf
        ((cwevent_headers d).get ⟨i, hilen⟩) = i := by
      simpa using List.get_indexOf hnd'.1 ⟨i, hilen⟩
    rw [set_all_headers_eq_setAllFold]
    exact setAllFold_writes_standard (all_headers d) d _ i hmem hidx
      (List.mem_append_left _ hmem)
  have hext : ∀ j, j < EXT_FIELDS_COUNT →
      (set_all_headers d).ext_fields j = 1 := by
    intro j hj
    have hjlen : j < (cwevent_ext_headers d).length := by
      rw [length_cwevent_ext_headers]; exact hj
    have hmem : (cwevent_ext_headers d).get ⟨j, hjlen⟩ ∈ cwevent_ext_headers d :=
      List.get_mem _ _ _
    have hnot : (cwevent_ext_headers d).get ⟨j, hjlen⟩ ∉ cwevent_headers d :=
      fun hc => hnd'.2.2 hc hmem
    have hidx : (cwevent_ext_headers d).indexOf
        ((cwevent_ext_headers d).get ⟨j, hjlen⟩) = j := by
      simpa using List.get_indexOf hnd'.2.1 ⟨j, hjlen⟩
    rw [set_all_headers_eq_setAllFold]
    exact setAllFold_writes_ext (all_headers d) d _ j hnot hmem hidx
      (List.mem_append_right _ hmem)
  refine ⟨hstd, hext, ?_⟩
  have hH : cwevent_headers (set_all_headers d) = cwevent_headers d := by
    rw [set_all_headers_eq_setAllFold]
    simp [cwevent_headers, cwevent_field_data, setAllFold_field_data]
  have hE : cwevent_ext_headers (set_all_headers d) = cwevent_ext_headers d := by
    rw [set_all_headers_eq_setAllFold]
    simp [cwevent_ext_headers, cwevent_ext_field_data, setAllFold_ext_field_data]
  unfold active_headers
  rw [hH, hE]
  have hfil1 : ((cwevent_headers d).enum.filter
      (fun p => (cwevent_fields (set_all_headers d)).getD p.1 0 == 1))
      = (cwevent_headers d).enum := by
    apply List.filter_eq_self.mpr
    intro p hp
    have hlt : p.1 < FIELDS_COUNT := by
      have := List.fst_lt_of_mem_enum hp
      rwa [length_cwevent_headers] at this
    have hgd : (cwevent_fields (set_all_headers d)).getD p.1 0
        = (set_all_headers d).fields p.1 := by
      simp [cwevent_fields, FIELDS_COUNT, List.getD_eq_getElem?_getD,
        List.getElem?_range (show p.1 < 96 from hlt)]
    rw [hgd, hstd p.1 hlt]
    rfl
  have hfil2 : ((cwevent_ext_headers d).enum.filter
      (fun p => (cwevent_ext_fields (set_all_headers d)).getD p.1 0 == 1))
      = (cwevent_ext_headers d).enum := by
    apply List.filter_eq_self.mpr
    intro p hp
    have hlt : p.1 < EXT_FIELDS_COUNT := by
      have := List.fst_lt_of_mem_enum hp
      rwa [length_cwevent_ext_headers] at this
    have hgd : (cwevent_ext_fields (set_all_headers d)).getD p.1 0
        = (set_all_headers d).ext_fields p.1 := by
      simp [cwevent_ext_fields, EXT_FIELDS_COUNT, List.getD_eq_getElem?_getD,
        List.getElem?_range (show p.1 < 63 from hlt)]
    rw [hgd, hext p.1 hlt]
    rfl
  rw [hfil1, hfil2, List.enum_map_snd, List.enum_map_snd]
  rfl

/-- Witness for the amended C8 theorem at `dllSeq`, whose 159 header names
are pairwise distinct. -/
theorem set_all_headers_enables_all_witness :
    (all_headers dllSeq).Nodup
    ∧ active_headers (set_all_headers dllSeq) = all_headers dllSeq := by
  have hf : Function.Injective
      (fun n : Nat => (⟨List.replicate n 'a'⟩ : String)) := by
    intro m n he
    have hd : List.replicate m 'a' = List.replicate n 'a' :=
      congrArg String.data he
    simpa using congrArg List.length hd
  have hhd : cwevent_headers dllSeq
      = (List.range FIELDS_COUNT).map
          (fun n : Nat => (⟨List.replicate n 'a'⟩ : String)) := by
    rw [cwevent_headers, cwevent_field_data, List.map_map]
    rfl
  have hed : cwevent_ext_headers dllSeq
      = (List.range EXT_FIELDS_COUNT).map
          (fun n : Nat => (⟨List.replicate (FIELDS_COUNT + n) 'a'⟩ : String)) := by
    rw [cwevent_ext_headers, cwevent_ext_field_data, List.map_map]
    rfl
  have hnd : (all_headers dllSeq).Nodup := by
    rw [all_headers, hhd, hed]
    refine List.nodup_append.mpr ⟨?_, ?_, ?_⟩
    · exact (List.nodup_range _).map hf
    · refine (List.nodup_range _).map ?_
      intro m n he
      have := hf he
      omega
    · intro a ha hb
      rcases List.mem_map.mp ha with ⟨i, hi, hia⟩
      rcases List.mem_map.mp hb with ⟨j, _, hjb⟩
      have hij : i = FIELDS_COUNT + j := hf (hia.trans hjb.symm)
      have : i < FIELDS_COUNT := List.mem_range.mp hi
      omega
  exact ⟨hnd, (set_all_headers_enables_all dllSeq hnd).2.2⟩

/-! ### Trace lemmas for the `games` generator -/

theorem gamesLoop_ok_prefix (pre : List Nat) (rest : List ReadResult) :
    gamesLoop (pre.map ReadResult.ok ++ rest)
      = (pre.bind (fun g =>
          [GEvent.feofCheck false, GEvent.readGame (ReadResult.ok g),
           GEvent.yieldGame g])) ++ gamesLoop rest := by
  induction pre with
  | nil => simp
  | cons g pre' ih =>
    simp only [List.map_cons, List.cons_append, List.cons_bind]
    rw [show gamesLoop (ReadResult.ok g :: (pre'.map ReadResult.ok ++ rest))
        = GEvent.feofCheck false :: GEvent.readGame (ReadResult.ok g)
          :: GEvent.yieldGame g :: gamesLoop (pre'.map ReadResult.ok ++ rest)
        from rfl, ih]
    simp

theorem yieldsOf_bind_triple (pre : List Nat) :
    yieldsOf (pre.bind (fun g =>
      [GEvent.feofCheck false, GEvent.readGame (ReadResult.ok g),
       GEvent.yieldGame g])) = pre := by
  induction pre with
  | nil => rfl
  | cons g pre' ih =>
    simp only [List.cons_bind, yieldsOf, List.filterMap_append] at ih ⊢
    rw [ih]
    rfl

theorem gamesLoop_feof_true_last :
    ∀ (f : List ReadResult) (i : Nat),
      (gamesLoop f)[i]? = some (GEvent.feofCheck true) →
      i + 1 = (gamesLoop f).length := by
  intro f
  induction f with
  | nil =>
    intro i h
    match i, h with
    | 0, _ => rfl
    | n + 1, h => simp [gamesLoop] at h
  | cons r rest ih =>
    intro i h
    cases r with
    | ok g =>
      match i, h with
      | 0, h => simp [gamesLoop] at h
      | 1, h => simp [gamesLoop] at h
      | 2, h => simp [gamesLoop] at h
      | n + 3, h =>
        have hh : (gamesLoop rest)[n]? = some (GEvent.feofCheck true) := by
          simpa [gamesLoop] using h
        have hlen := ih n hh
        show n + 3 + 1 = (GEvent.feofCheck false :: GEvent.readGame _
          :: GEvent.yieldGame g :: gamesLoop rest).length
        simp only [List.length_cons]
        omega
    | exn =>
      match i, h with
      | 0, h => simp [gamesLoop] at h
      | 1, h => simp [gamesLoop] at h
      | 2, h => simp [gamesLoop] at h
      | n + 3, h => simp [gamesLoop] at h

theorem yieldsOf_gamesLoop_eq_okReadsOf :
    ∀ f : List ReadResult,
      yieldsOf (gamesLoop f) = okReadsOf (gamesLoop f) := by
  intro f
  induction f with
  | nil => rfl
  | cons r rest ih =>
    cases r with
    | ok g =>
      show yieldsOf (GEvent.feofCheck false :: GEvent.readGame _
          :: GEvent.yieldGame g :: gamesLoop rest)
        = okReadsOf (GEvent.feofCheck false :: GEvent.readGame _
          :: GEvent.yieldGame g :: gamesLoop rest)
      simp only [yieldsOf, okReadsOf, List.filterMap_cons] at ih ⊢
      rw [ih]
    | exn => rfl

/-! ### Claim theorems: the `games` generator -/

/-- Claim C2: when a `cw_game_read` call raises, `games` closes the file
handle via `fclose` and stops: the trace is exactly the open event, the
per-game triples for the games read before the failure, then the failing
feof-check/read and the close event; the yields are exactly the games read
before the failure, the trace ends at the close event, and no exception is
ever propagated out of the generator. -/
theorem games_exception_closes_and_stops (path : String) (pre : List Nat)
    (post : List ReadResult) :
    games path (pre.map ReadResult.ok ++ ReadResult.exn :: post)
      = GEvent.openFile path "r"
        :: ((pre.bind (fun g =>
              [GEvent.feofCheck false, GEvent.readGame (ReadResult.ok g),
               GEvent.yieldGame g]))
          ++ [GEvent.feofCheck false, GEvent.readGame ReadResult.exn,
              GEvent.closeFile])
    ∧ yieldsOf (games path (pre.map ReadResult.ok ++ ReadResult.exn :: post))
        = pre
    ∧ (games path (pre.map ReadResult.ok
        ++ ReadResult.exn :: post)).getLast? = some GEvent.closeFile
    ∧ GEvent.raiseExn
        ∉ games path (pre.map ReadResult.ok ++ ReadResult.exn :: post) := by
  have heq : games path (pre.map ReadResult.ok ++ ReadResult.exn :: post)
      = GEvent.openFile path "r"
        :: ((pre.bind (fun g =>
              [GEvent.feofCheck false, GEvent.readGame (ReadResult.ok g),
               GEvent.yieldGame g]))
          ++ [GEvent.feofCheck false, GEvent.readGame ReadResult.exn,
              GEvent.closeFile]) := by
    rw [games, gamesLoop_ok_prefix]
    rfl
  refine ⟨heq, ?_, ?_, ?_⟩
  · rw [heq]
    have h1 := yieldsOf_bind_triple pre
    simp only [yieldsOf] at h1
    simp only [yieldsOf, List.filterMap_cons, List.filterMap_append,
      List.filterMap_nil, h1, List.append_nil]
  · rw [heq]
    rw [show GEvent.openFile path "r"
        :: ((pre.bind (fun g =>
              [GEvent.feofCheck false, GEvent.readGame (ReadResult.ok g),
               GEvent.yieldGame g]))
          ++ [GEvent.feofCheck false, GEvent.readGame ReadResult.exn,
              GEvent.closeFile])
        = (GEvent.openFile path "r"
            :: (pre.bind (fun g =>
              [GEvent.feofCheck false, GEvent.readGame (ReadResult.ok g),
               GEvent.yieldGame g]))
          ++ [GEvent.feofCheck false, GEvent.readGame ReadResult.exn])
          ++ [GEvent.closeFile] from by simp]
    exact List.getLast?_concat _
  · rw [heq]
    intro hm
    simp only [List.mem_cons, List.mem_append, List.mem_bind] at hm
    rcases hm with h | ⟨⟨g, _, hg⟩ | h⟩
    · cases h
    · simp at hg
    · simp at h

/-- Claim C5: `games(file_path)` opens the file by path (with the default
mode `"r"`), reads game records only while `feof` returns zero — no
`cw_game_read` event ever follows a nonzero `feof` check — and yields
exactly the game pointers returned by its successful reads, in order. -/
theorem games_reads_until_eof (path : String) (file : List ReadResult) :
    (games path file).head? = some (GEvent.openFile path "r")
    ∧ (∀ (i j : Nat) (r : ReadResult), i < j →
        (games path file)[i]? = some (GEvent.feofCheck true) →
        (games path file)[j]? ≠ some (GEvent.readGame r))
    ∧ yieldsOf (games path file) = okReadsOf (games path file) := by
  refine ⟨rfl, ?_, ?_⟩
  · intro i j r hij hi
    cases i with
    | zero => simp [games] at hi
    | succ i' =>
      have hi' : (gamesLoop file)[i']? = some (GEvent.feofCheck true) := by
        simpa [games] using hi
      have hlen := gamesLoop_feof_true_last file i' hi'
      cases j with
      | zero => omega
      | succ j' =>
        have hj' : (gamesLoop file).length ≤ j' := by omega
        have hrw : (games path file)[j' + 1]? = (gamesLoop file)[j']? := by
          simp [games]
        rw [hrw, List.getElem?_eq_none hj']
        intro hc
        cases hc
  · show yieldsOf (GEvent.openFile path "r" :: gamesLoop file)
      = okReadsOf (GEvent.openFile path "r" :: gamesLoop file)
    simp only [yieldsOf, okReadsOf, List.filterMap_cons]
    exact yieldsOf_gamesLoop_eq_okReadsOf file

/-- Witness for the C2 theorem: one good game, then a failing read. -/
theorem games_exception_closes_and_stops_witness :
    yieldsOf (games "events.txt"
        (([3] : List Nat).map ReadResult.ok ++ ReadResult.exn :: [])) = [3]
    ∧ (games "events.txt"
        (([3] : List Nat).map ReadResult.ok
          ++ ReadResult.exn :: [])).getLast? = some GEvent.closeFile := by
  have h := games_exception_closes_and_stops "events.txt" [3] []
  exact ⟨h.2.1, h.2.2.1⟩

/-- Witness for the C5 theorem: after the final true `feof` check, index 5
holds no read event. -/
theorem games_reads_until_eof_witness :
    (4 : Nat) < 5
    ∧ (games "events.txt" [ReadResult.ok 9])[4]?
        = some (GEvent.feofCheck true)
    ∧ (games "events.txt" [ReadResult.ok 9])[5]?
        ≠ some (GEvent.readGame (ReadResult.ok 9)) := by
  refine ⟨by decide, by decide, ?_⟩
  exact (games_reads_until_eof "events.txt" [ReadResult.ok 9]).2.1 4 5
    (ReadResult.ok 9) (by decide) (by decide)

/-! ### Claim theorems: library loading -/

/-- Claim C3 counterexample: constructing a `Chadwick` instance loads the
library immediately — starting from a fresh process, the `LoadLibrary`
call count after `__init__` is 1, not 0. -/
theorem chadwick_init_loads_eagerly_counterexample :
    (chadwick_init ⟨0⟩ "libchadwick2.so").1.loadCount ≠ 0
    ∧ (chadwick_init ⟨0⟩ "libchadwick2.so").1.loadCount = 1 := by
  exact ⟨by decide, rfl⟩

/-- Claim C3 (amended): the shared object is resolved and loaded by path,
but eagerly: `__init__` itself performs exactly one `LoadLibrary` call and
stores the handle in the instance attribute `_dll`, and every subsequent
access to the `libchadwick` property returns that stored handle without
loading again (a reload happens only if the handle is `None`). -/
theorem chadwick_init_load_behavior (w : World) (path : String) :
    (chadwick_init w path).1.loadCount = w.loadCount + 1
    ∧ (chadwick_init w path).2._dll = some w.loadCount
    ∧ (chadwick_init w path).2.library_path = path
    ∧ (∀ w2 : World,
        libchadwick w2 (chadwick_init w path).2
          = (w2, (chadwick_init w path).2, w.loadCount)) :=
  ⟨rfl, rfl, rfl, fun _ => rfl⟩

/-! ### Lemmas on the frame model -/

theorem find?_setCol_map (tail : List (String × Column)) (name : String)
    (c : Column) (name' : String) (h : name' ≠ name) :
    (tail.map (fun p => if p.1 == name then (p.1, c) else p)).find?
        (fun p => p.1 == name')
      = tail.find? (fun p => p.1 == name') := by
  induction tail with
  | nil => rfl
  | cons q t ih =>
    simp only [List.map_cons, List.find?_cons]
    by_cases hq : q.1 = name
    · have hb : (q.1 == name') = false := by
        rw [hq]
        exact beq_eq_false_iff_ne.mpr (fun e => h e.symm)
      rw [if_pos (beq_iff_eq.mpr hq)]
      simp only [show ((q.1, c).1 == name') = false from hb, hb]
      exact ih
    · rw [if_neg (by simp [hq])]
      cases hq' : q.1 == name' with
      | true => simp only [hq']
      | false =>
        simp only [hq']
        exact ih

theorem DataFrame.getCol_setCol_ne (df : DataFrame) (name : String)
    (c : Column) (name' : String) (h : name' ≠ name) :
    (df.setCol name c).getCol name' = df.getCol name' := by
  rcases df with ⟨cols⟩
  simp only [DataFrame.getCol, DataFrame.setCol]
  rw [find?_setCol_map cols name c name' h]

theorem DataFrame.names_setCol (df : DataFrame) (name : String) (c : Column) :
    (df.setCol name c).cols.map Prod.fst = df.cols.map Prod.fst := by
  rcases df with ⟨cols⟩
  simp only [DataFrame.setCol]
  induction cols with
  | nil => rfl
  | cons q tail ih =>
    simp only [List.map_cons, ih]
    by_cases hq : q.1 = name
    · rw [if_pos (beq_iff_eq.mpr hq)]
    · rw [if_neg (by simp [hq])]

theorem DataFrame.hasCol_eq_names (df : DataFrame) (name : String) :
    df.hasCol name = (df.cols.map Prod.fst).any (fun x => x == name) := by
  rcases df with ⟨cols⟩
  show cols.any _ = _
  induction cols with
  | nil => rfl
  | cons q tail ih => simp only [List.any_cons, List.map_cons, ih]

theorem convert_names_invariant (coerce : String → Int → Int)
    (mapping : List (String × String)) :
    ∀ df : DataFrame,
      (convert_data_frame_types coerce df mapping).cols.map Prod.fst
        = df.cols.map Prod.fst := by
  induction mapping with
  | nil => intro df; rfl
  | cons p rest ih =>
    intro df
    show (convert_data_frame_types coerce
        (if df.hasCol p.1 then
          df.setCol p.1 (astypeCol coerce p.2 ((df.getCol p.1).getD ⟨"", []⟩))
         else df) rest).cols.map Prod.fst = df.cols.map Prod.fst
    by_cases h : df.hasCol p.1 = true
    · rw [if_pos h, ih, DataFrame.names_setCol]
    · rw [if_neg h, ih]

theorem convert_hasCol_invariant (coerce : String → Int → Int)
    (mapping : List (String × String)) (df : DataFrame) (name : String) :
    (convert_data_frame_types coerce df mapping).hasCol name
      = df.hasCol name := by
  rw [DataFrame.hasCol_eq_names, DataFrame.hasCol_eq_names,
    convert_names_invariant]

/-! ### Claim theorems: frame conversion -/

/-- Claim C7: `convert_data_frame_types` coerces only columns that are
both listed in the type mapping and present in the frame: a column not
named in the mapping keeps its dtype and values unchanged, and a mapping
entry whose column is absent from the frame has no effect on the result. -/
theorem convert_data_frame_types_spec (coerce : String → Int → Int)
    (df : DataFrame) (mapping : List (String × String)) (col : String)
    (hcol : col ∉ mapping.map Prod.fst) :
    (convert_data_frame_types coerce df mapping).getCol col = df.getCol col
    ∧ ∀ (m1 m2 : List (String × String)) (c dt : String),
        df.hasCol c = false →
        convert_data_frame_types coerce df (m1 ++ (c, dt) :: m2)
          = convert_data_frame_types coerce df (m1 ++ m2) := by
  constructor
  · induction mapping generalizing df with
    | nil => rfl
    | cons p rest ih =>
      have hne : col ≠ p.1 := by
        intro e
        exact hcol (by simp [e])
      have hrest : col ∉ rest.map Prod.fst := by
        intro e
        exact hcol (by simp [e])
      show (convert_data_frame_types coerce
          (if df.hasCol p.1 then
            df.setCol p.1 (astypeCol coerce p.2 ((df.getCol p.1).getD ⟨"", []⟩))
           else df) rest).getCol col = df.getCol col
      by_cases h : df.hasCol p.1 = true
      · rw [if_pos h, ih _ hrest, DataFrame.getCol_setCol_ne _ _ _ _ hne]
      · rw [if_neg h, ih _ hrest]
  · intro m1 m2 c dt hc
    have key : ∀ m : List (String × String),
        convert_data_frame_types coerce df m
          = List.foldl (fun df p =>
              if df.hasCol p.1 then
                df.setCol p.1
                  (astypeCol coerce p.2 ((df.getCol p.1).getD ⟨"", []⟩))
              else df) df m := fun _ => rfl
    have hc' : (convert_data_frame_types coerce df m1).hasCol c = false := by
      rw [convert_hasCol_invariant]
      exact hc
    rw [key, key, List.foldl_append, List.foldl_append, List.foldl_cons]
    congr 1
    show (if (convert_data_frame_types coerce df m1).hasCol c then
        (convert_data_frame_types coerce df m1).setCol c
          (astypeCol coerce dt
            (((convert_data_frame_types coerce df m1).getCol c).getD ⟨"", []⟩))
      else convert_data_frame_types coerce df m1)
      = convert_data_frame_types coerce df m1
    rw [if_neg (by rw [hc']; exact Bool.false_ne_true)]

/-- Witness for the C7 theorem: column `y` is untouched when the mapping
names only `x` and the absent `z`, and dropping the absent entry `z`
changes nothing. -/
theorem convert_data_frame_types_spec_witness :
    "y" ∉ ([("x", "f8"), ("z", "f8")] : List (String × String)).map Prod.fst
    ∧ (DataFrame.hasCol ⟨[("x", ⟨"i4", [1, 2]⟩), ("y", ⟨"i4", [3]⟩)]⟩ "z")
        = false
    ∧ (convert_data_frame_types (fun _ v => v * 2)
        ⟨[("x", ⟨"i4", [1, 2]⟩), ("y", ⟨"i4", [3]⟩)]⟩
        [("x", "f8"), ("z", "f8")]).getCol "y"
      = (DataFrame.getCol ⟨[("x", ⟨"i4", [1, 2]⟩), ("y", ⟨"i4", [3]⟩)]⟩ "y")
    ∧ convert_data_frame_types (fun _ v => v * 2)
        ⟨[("x", ⟨"i4", [1, 2]⟩), ("y", ⟨"i4", [3]⟩)]⟩
        ([("x", "f8")] ++ ("z", "f8") :: [])
      = convert_data_frame_types (fun _ v => v * 2)
        ⟨[("x", ⟨"i4", [1, 2]⟩), ("y", ⟨"i4", [3]⟩)]⟩
        ([("x", "f8")] ++ []) := by
  have h := convert_data_frame_types_spec (fun _ v => v * 2)
    ⟨[("x", ⟨"i4", [1, 2]⟩), ("y", ⟨"i4", [3]⟩)]⟩
    [("x", "f8"), ("z", "f8")] "y" (by decide)
  exact ⟨by decide, by decide, h.1, h.2 [("x", "f8")] [] "z" "f8" (by decide)⟩

end Pychadwick
